import Mathlib

/-!
Verification of the JobDoko task-tree engine (src/main.py).

Two embeddings are used, both translated from the source:

* A *tree layer*: `TaskNode` mirrors the Python `TaskNode` class viewed as a
  value (the recursive structure of a node and its owned `children` list).
  The pure queries and the serializer — the `is_completed` property getter,
  `to_dict`, `from_dict`, `find_task_by_id`, `find_task_in_list`, and
  the import branch of `main_app` — are structurally recursive functions
  over it.

* A *heap layer*: `Heap` is an id-indexed store of `Node` records with
  explicit `parent` / `children` id references, mirroring the Python object
  graph (objects are identified by ids, which stand for object identity).
  The mutating methods — the `is_completed` setter, `add_child`,
  `remove_child` / `remove_self`, the UI delete branch, `promote`, `demote`,
  `toggle_expand` — are state transformers over it.
-/

namespace JobDoko

/-! ### Tree layer: the `TaskNode` value -/

/-- A task node as a value: `task_id`, `name`, `description`, the raw stored
completion flag `_is_completed`, the `is_expanded` flag, `created_at`
(a datetime, represented by its ISO string), and the owned `children` list
(insertion order preserved).  The `parent` back-reference of the Python class
is not part of the value; it lives in the heap layer. -/
inductive TaskNode : Type where
  | mk : String → String → String → Bool → Bool → String → List TaskNode → TaskNode

/-- The `task_id` field. -/
def TaskNode.task_id : TaskNode → String
  | TaskNode.mk i _ _ _ _ _ _ => i

/-- The `name` field. -/
def TaskNode.name : TaskNode → String
  | TaskNode.mk _ nm _ _ _ _ _ => nm

/-- The `description` field. -/
def TaskNode.description : TaskNode → String
  | TaskNode.mk _ _ ds _ _ _ _ => ds

/-- The raw stored `_is_completed` flag (the private field, not the derived
property). -/
def TaskNode.rawCompleted : TaskNode → Bool
  | TaskNode.mk _ _ _ fl _ _ _ => fl

/-- The `is_expanded` field. -/
def TaskNode.is_expanded : TaskNode → Bool
  | TaskNode.mk _ _ _ _ ex _ _ => ex

/-- The `created_at` field (ISO string). -/
def TaskNode.created_at : TaskNode → String
  | TaskNode.mk _ _ _ _ _ ca _ => ca

/-- The `children` field. -/
def TaskNode.children : TaskNode → List TaskNode
  | TaskNode.mk _ _ _ _ _ _ ch => ch

/-- Replace only the raw `_is_completed` field of a node, leaving everything
else (including the children) as is.  Used to state that the derived
completion of a non-leaf does not depend on its own stored flag. -/
def TaskNode.withRaw : TaskNode → Bool → TaskNode
  | TaskNode.mk i nm ds _ ex ca ch, b => TaskNode.mk i nm ds b ex ca ch

mutual

/-- The `is_completed` property *getter* (src/main.py lines 251-256):
`if not self.children: return self._is_completed` else the conjunction
`all(child.is_completed for child in self.children)`, recomputed on every
read. -/
def TaskNode.is_completed : TaskNode → Bool
  | TaskNode.mk _ _ _ fl _ _ [] => fl
  | TaskNode.mk _ _ _ _ _ _ (c :: cs) => allCompleted (c :: cs)

/-- Python `all(child.is_completed for child in children)` over a list of nodes. -/
def allCompleted : List TaskNode → Bool
  | [] => true
  | t :: ts => t.is_completed && allCompleted ts

end

theorem allCompleted_eq_all (ts : List TaskNode) :
    allCompleted ts = ts.all TaskNode.is_completed := by
  induction ts with
  | nil => simp [allCompleted]
  | cons t ts ih => simp [allCompleted, ih]

/-! ### Serializer: `to_dict` / `from_dict`

A serialized record is a Python dict with the seven keys written by
`to_dict`.  To model records where keys may be absent (older or malformed
uploads), every field is an `Option`; `none` means the key is missing. -/

/-- A serialized node record, fields in the order `to_dict` writes them:
`task_id`, `name`, `description`, `is_completed`, `is_expanded`,
`created_at`, `children`.  `none` models an absent key. -/
inductive Rec : Type where
  | mk : Option String → Option String → Option String → Option Bool →
         Option Bool → Option String → Option (List Rec) → Rec

/-- The `task_id` entry of a record. -/
def Rec.task_id : Rec → Option String
  | Rec.mk i _ _ _ _ _ _ => i

/-- The `is_completed` entry of a record. -/
def Rec.is_completed : Rec → Option Bool
  | Rec.mk _ _ _ fl _ _ _ => fl

/-- The `children` entry of a record. -/
def Rec.children : Rec → Option (List Rec)
  | Rec.mk _ _ _ _ _ _ ch => ch

mutual

/-- Method `TaskNode.to_dict` (src/main.py lines 298-307): writes `task_id`, `name`,
`description`, the *raw* stored flag `self._is_completed` (not the derived
property), `is_expanded`, `created_at.isoformat()`, and the recursively
serialized `children`. -/
def to_dict : TaskNode → Rec
  | TaskNode.mk i nm ds fl ex ca ch =>
      Rec.mk (some i) (some nm) (some ds) (some fl) (some ex) (some ca)
        (some (toDictList ch))

/-- The list comprehension `[child.to_dict() for child in children]`. -/
def toDictList : List TaskNode → List Rec
  | [] => []
  | t :: ts => to_dict t :: toDictList ts

end

/-- Model of `datetime.fromisoformat(data.get("created_at"))`: datetimes are
represented by their ISO strings, so parsing a present string succeeds and
returns it; the argument being absent (Python `None`, from `.get` on a record
without the key) raises a `TypeError`. -/
def fromisoformat : Option String → Except String String
  | none => Except.error "TypeError: fromisoformat argument must be str"
  | some s => Except.ok s

mutual

/-- Method `TaskNode.from_dict` (src/main.py lines 309-320).  Required keys are read
with `data[...]` and raise `KeyError` when absent, in the evaluation order of
the `cls(...)` call: `name`, `description`, `is_completed`, `task_id`; then
`created_at` via `datetime.fromisoformat(data.get("created_at"))`; then
`is_expanded` via `data.get("is_expanded", False)`; then the required
`data["children"]`, each child deserialized recursively (the first failing
child aborts the whole call). -/
def from_dict : Rec → Except String TaskNode
  | Rec.mk i nm ds fl ex ca ch =>
    match nm with
    | none => Except.error "KeyError: name"
    | some name =>
    match ds with
    | none => Except.error "KeyError: description"
    | some desc =>
    match fl with
    | none => Except.error "KeyError: is_completed"
    | some flag =>
    match i with
    | none => Except.error "KeyError: task_id"
    | some tid =>
    match fromisoformat ca with
    | Except.error e => Except.error e
    | Except.ok created =>
    let exp := ex.getD false
    match ch with
    | none => Except.error "KeyError: children"
    | some chRecs =>
    match fromDictList chRecs with
    | Except.error e => Except.error e
    | Except.ok childs =>
        Except.ok (TaskNode.mk tid name desc flag exp created childs)

/-- The comprehension `[cls.from_dict(child, task) for child in data["children"]]`: the
children in order; the first error aborts the list. -/
def fromDictList : List Rec → Except String (List TaskNode)
  | [] => Except.ok []
  | r :: rs =>
    match from_dict r with
    | Except.error e => Except.error e
    | Except.ok t =>
      match fromDictList rs with
      | Except.error e => Except.error e
      | Except.ok ts => Except.ok (t :: ts)

end

/-! ### Lookup and the delete action -/

mutual

/-- Method `TaskNode.find_task_by_id` (src/main.py lines 286-293): return `self`
when the id matches, else the first match found among the children, else
not-found. -/
def find_task_by_id : TaskNode → String → Option TaskNode
  | TaskNode.mk tid nm ds fl ex ca ch, i =>
    if tid = i then some (TaskNode.mk tid nm ds fl ex ca ch)
    else findInChildren ch i

/-- Function `find_task_in_list` (src/main.py lines 359-364): first node in the list
(in order) whose subtree contains the id. -/
def findInChildren : List TaskNode → String → Option TaskNode
  | [], _ => none
  | t :: ts, i =>
    match find_task_by_id t i with
    | some f => some f
    | none => findInChildren ts i

end

/-- Function `find_task_in_list` is the same loop as the children search. -/
def find_task_in_list (tasks : List TaskNode) (i : String) : Option TaskNode :=
  findInChildren tasks i

mutual

/-- The id of a node together with the ids of its whole subtree, in preorder. -/
def subtreeIds : TaskNode → List String
  | TaskNode.mk tid _ _ _ _ _ ch => tid :: forestIds ch

/-- All ids occurring in a forest, in preorder. -/
def forestIds : List TaskNode → List String
  | [] => []
  | t :: ts => subtreeIds t ++ forestIds ts

end

mutual

/-- The delete action of the UI (src/main.py lines 597-603) at forest level,
keyed by id because the embedding has no object identity: the first node in
preorder whose `task_id` matches is detached together with its whole subtree
— via `parent.children.remove(task)` (`remove_self` → `remove_child`, lines
273-280) when it sits in some parent's `children`, via
`root_tasks.remove(task)` when it is a root.  Nothing else changes. -/
def removeFromForest : List TaskNode → String → List TaskNode
  | [], _ => []
  | t :: ts, i =>
    if t.task_id = i then ts
    else if (find_task_by_id t i).isSome then removeInNode t i :: ts
    else t :: removeFromForest ts i

/-- Detach the node with the given id inside the subtree of `t` (a strict
descendant of `t`). -/
def removeInNode : TaskNode → String → TaskNode
  | TaskNode.mk tid nm ds fl ex ca ch, i =>
      TaskNode.mk tid nm ds fl ex ca (removeFromForest ch i)

end

/-- The import branch of `main_app` (src/main.py lines 677-686).
`upload = none` models `json.load` raising on malformed JSON; otherwise the
parsed list of records is deserialized by the list comprehension
`[TaskNode.from_dict(task_data) for task_data in data]`, which either raises
(caught, forest kept, error surfaced — second component `false`) or replaces
`st.session_state.root_tasks` wholesale. -/
def importTasks (roots : List TaskNode) (upload : Option (List Rec)) :
    List TaskNode × Bool :=
  match upload with
  | none => (roots, false)
  | some data =>
    match fromDictList data with
    | Except.error _ => (roots, false)
    | Except.ok ts => (ts, true)

/-! ### Heap layer: the mutable object graph

Python `TaskNode` objects are identified by ids (`Nat` stands for object
identity); `parent` and `children` hold object references, i.e. ids.  A
`Heap` is the store of live objects plus the session's `root_tasks` list. -/

/-- One `TaskNode` object: the mutable fields of the Python instance, with
`parent` and `children` as id references. -/
structure Node where
  name : String
  description : String
  rawCompleted : Bool
  expanded : Bool
  createdAt : String
  parent : Option Nat
  children : List Nat
deriving DecidableEq, Repr

/-- The object graph: every live object by id, plus the forest's root list
(`st.session_state.root_tasks`). -/
structure Heap where
  nodes : Nat → Option Node
  roots : List Nat

/-- Overwrite the record of one object. -/
def setNode (h : Heap) (i : Nat) (n : Node) : Heap :=
  { h with nodes := fun j => if j = i then some n else h.nodes j }

theorem setNode_nodes (h : Heap) (i : Nat) (n : Node) (j : Nat) :
    (setNode h i n).nodes j = if j = i then some n else h.nodes j := rfl

theorem setNode_roots (h : Heap) (i : Nat) (n : Node) :
    (setNode h i n).roots = h.roots := rfl

/-- Outcome of the `is_completed` setter: the assignment happened, or the
node has children and the write was refused with a warning (`NotALeaf`), or
the id names no live object (an embedding artifact; a Python call site always
holds a live object). -/
inductive SetResult : Type where
  | ok : SetResult
  | notALeaf : SetResult
  | notFound : SetResult
deriving DecidableEq

/-- The `is_completed` property *setter* (src/main.py lines 258-265):
`if not self.children: self._is_completed = value` (the change notification
touches no tree state), else a warning is surfaced and nothing is assigned. -/
def setCompleted (h : Heap) (c : Nat) (v : Bool) : Heap × SetResult :=
  match h.nodes c with
  | none => (h, SetResult.notFound)
  | some nc =>
    if nc.children = [] then
      (setNode h c { nc with rawCompleted := v }, SetResult.ok)
    else (h, SetResult.notALeaf)

/-- Method `TaskNode.add_child` (src/main.py lines 267-271): construct a fresh leaf
(`is_completed = False`, `is_expanded = False`, `parent = self`, no
children) under the fresh id `z` and append it to `self.children`. -/
def addChild (h : Heap) (p : Nat) (z : Nat) (nm ds ca : String) : Heap :=
  match h.nodes p with
  | none => h
  | some np =>
    let child : Node :=
      { name := nm, description := ds, rawCompleted := false,
        expanded := false, createdAt := ca, parent := some p, children := [] }
    let h1 := setNode h z child
    setNode h1 p { np with children := np.children ++ [z] }

/-- Method `TaskNode.remove_child` (src/main.py lines 277-280):
`if child in self.children: self.children.remove(child)` — the first
occurrence is dropped; the child's `parent` field is *not* touched. -/
def removeChild (h : Heap) (p : Nat) (c : Nat) : Heap :=
  match h.nodes p with
  | none => h
  | some np =>
    if c ∈ np.children then
      setNode h p { np with children := np.children.erase c }
    else h

/-- Method `TaskNode.remove_self` (src/main.py lines 273-275):
`if self.parent: self.parent.remove_child(self)`. -/
def removeSelf (h : Heap) (c : Nat) : Heap :=
  match h.nodes c with
  | none => h
  | some nc =>
    match nc.parent with
    | none => h
    | some p => removeChild h p c

/-- The UI delete action (src/main.py lines 597-603):
`task.remove_self()` when the node has a parent, else
`st.session_state.root_tasks.remove(task)`. -/
def deleteTask (h : Heap) (c : Nat) : Heap :=
  match h.nodes c with
  | none => h
  | some nc =>
    match nc.parent with
    | some _ => removeSelf h c
    | none => { h with roots := h.roots.erase c }

/-- Method `TaskNode.promote` (src/main.py lines 322-332): declined (`False`) when
`self.parent` or `self.parent.parent` is absent; otherwise
`self.parent.remove_child(self)`, then `grandparent.children.append(self)`,
then `self.parent = grandparent`, returning `True`.  The lookups that a
Python object reference can never see fail (a dangling id) keep the heap
unchanged on the affected step. -/
def promote (h : Heap) (c : Nat) : Heap × Bool :=
  match h.nodes c with
  | none => (h, false)
  | some nc =>
    match nc.parent with
    | none => (h, false)
    | some p =>
      match h.nodes p with
      | none => (h, false)
      | some np =>
        match np.parent with
        | none => (h, false)
        | some g =>
          let h1 := removeChild h p c
          let h2 :=
            match h1.nodes g with
            | none => h1
            | some ng => setNode h1 g { ng with children := ng.children ++ [c] }
          let h3 :=
            match h2.nodes c with
            | none => h2
            | some nc2 => setNode h2 c { nc2 with parent := some g }
          (h3, true)

/-- Method `TaskNode.demote` (src/main.py lines 334-347): declined (`False`) when
there is no parent, when `sibling_index` is negative or not below
`len(self.parent.children)`, or when the indexed sibling is `self`;
otherwise `self.parent.remove_child(self)`, then
`target_sibling.children.append(self)`, then `self.parent = target_sibling`,
returning `True`.  The target is read off the parent's child list *before*
the removal, exactly as the Python local `target_sibling` is. -/
def demote (h : Heap) (c : Nat) (siblingIndex : Int) : Heap × Bool :=
  match h.nodes c with
  | none => (h, false)
  | some nc =>
    match nc.parent with
    | none => (h, false)
    | some p =>
      match h.nodes p with
      | none => (h, false)
      | some np =>
        if siblingIndex < 0 then (h, false)
        else
          match np.children[siblingIndex.toNat]? with
          | none => (h, false)
          | some t =>
            if t = c then (h, false)
            else
              let h1 := removeChild h p c
              let h2 :=
                match h1.nodes t with
                | none => h1
                | some nt => setNode h1 t { nt with children := nt.children ++ [c] }
              let h3 :=
                match h2.nodes c with
                | none => h2
                | some nc2 => setNode h2 c { nc2 with parent := some t }
              (h3, true)

/-- Method `TaskNode.toggle_expand` (src/main.py lines 295-296). -/
def toggleExpand (h : Heap) (c : Nat) : Heap :=
  match h.nodes c with
  | none => h
  | some nc => setNode h c { nc with expanded := !nc.expanded }

/-- The `is_completed` getter read through the object graph, with fuel for
the recursion through child references (the Python recursion terminates
because the live graph is a forest).  A leaf answers its raw flag whenever
at least one unit of fuel is available. -/
def isCompletedH (h : Heap) : Nat → Nat → Bool
  | _, 0 => false
  | c, fuel + 1 =>
    match h.nodes c with
    | none => true
    | some nc =>
      if nc.children = [] then nc.rawCompleted
      else nc.children.all fun d => isCompletedH h d fuel

/-- Invariant I2 of the spec over the object graph: a live object `c` points
back to a live object `p` as its parent exactly when `c` is in `p`'s child
list. -/
def consistent (h : Heap) : Prop :=
  ∀ p np c nc, h.nodes p = some np → h.nodes c = some nc →
    (nc.parent = some p ↔ c ∈ np.children)

/-- Every live object's child list is duplicate-free (object identity makes
this automatic in Python's live forest). -/
def nodupChildren (h : Heap) : Prop :=
  ∀ p np, h.nodes p = some np → np.children.Nodup

/-! ### Round-trip helper lemmas -/

mutual

theorem from_dict_to_dict : ∀ t : TaskNode, from_dict (to_dict t) = Except.ok t
  | TaskNode.mk i nm ds fl ex ca ch => by
      simp [to_dict, from_dict, fromisoformat, fromDictList_toDictList ch]

theorem fromDictList_toDictList :
    ∀ ts : List TaskNode, fromDictList (toDictList ts) = Except.ok ts
  | [] => by simp [toDictList, fromDictList]
  | t :: ts => by
      simp [toDictList, fromDictList, from_dict_to_dict t,
        fromDictList_toDictList ts]

end

/-! ### Claims on the tree layer -/

/-- C1: the completion query is the stored raw flag on a node without
children, and the conjunction of the children's effective completion on a
node with at least one child; it is recomputed from the current children on
every read and, on a non-leaf, is independent of the node's own stored flag
(no cached value is consulted). -/
theorem C1_completion_derived (t : TaskNode) :
    (t.children = [] → t.is_completed = t.rawCompleted) ∧
    (t.children ≠ [] →
      t.is_completed = t.children.all TaskNode.is_completed ∧
      ∀ b, (t.withRaw b).is_completed = t.is_completed) := by
  cases t with
  | mk i nm ds fl ex ca ch =>
    cases ch with
    | nil =>
      constructor
      · intro _
        simp [TaskNode.is_completed, TaskNode.rawCompleted]
      · intro hne
        simp [TaskNode.children] at hne
    | cons c cs =>
      constructor
      · intro hemp
        simp [TaskNode.children] at hemp
      · intro _
        refine ⟨?_, ?_⟩
        · simp [TaskNode.is_completed, TaskNode.children, allCompleted_eq_all]
        · intro b
          simp [TaskNode.withRaw, TaskNode.is_completed]

/-- Witness for C1 at a concrete leaf and a concrete parent. -/
theorem C1_completion_derived_witness :
    (TaskNode.mk "l" "leaf" "" true false "t0" []).is_completed =
      (TaskNode.mk "l" "leaf" "" true false "t0" []).rawCompleted ∧
    (TaskNode.mk "p" "par" "" false false "t0"
        [TaskNode.mk "l" "leaf" "" true false "t0" []]).is_completed =
      (TaskNode.mk "p" "par" "" false false "t0"
        [TaskNode.mk "l" "leaf" "" true false "t0" []]).children.all
        TaskNode.is_completed :=
  ⟨(C1_completion_derived _).1 rfl,
   ((C1_completion_derived _).2 (by simp [TaskNode.children])).1⟩

/-- C2: deserializing the serialization of any forest (per root, over the
root list) succeeds and returns the identical forest — same ids, names,
descriptions, raw completed flags, expand flags, created-at values, and
child order — and the serialized record of a node carries the node's *raw*
completed flag, never the derived value. -/
theorem C2_roundtrip :
    (∀ ts : List TaskNode, fromDictList (toDictList ts) = Except.ok ts) ∧
    (∀ t : TaskNode, (to_dict t).is_completed = some t.rawCompleted) := by
  constructor
  · exact fromDictList_toDictList
  · intro t
    cases t with
    | mk i nm ds fl ex ca ch =>
      simp [to_dict, Rec.is_completed, TaskNode.rawCompleted]

/-- C5: import is all-or-nothing — a record that fails to parse
(`upload = none`) or fails to deserialize leaves the session forest exactly
as it was and reports failure; a record that deserializes replaces the
forest wholesale with the deserialized forest. -/
theorem C5_import_atomic :
    (∀ roots : List TaskNode, importTasks roots none = (roots, false)) ∧
    (∀ (roots : List TaskNode) (data : List Rec) (e : String),
        fromDictList data = Except.error e →
        importTasks roots (some data) = (roots, false)) ∧
    (∀ (roots : List TaskNode) (data : List Rec) (ts : List TaskNode),
        fromDictList data = Except.ok ts →
        importTasks roots (some data) = (ts, true)) := by
  refine ⟨fun roots => rfl, ?_, ?_⟩
  · intro roots data e he
    simp [importTasks, he]
  · intro roots data ts hts
    simp [importTasks, hts]

/-- A record missing its required `name` key. -/
def recNoName : Rec :=
  Rec.mk (some "x") none (some "") (some false) (some false) (some "t0") (some [])

/-- A one-leaf session forest. -/
def rootsExample : List TaskNode :=
  [TaskNode.mk "l" "leaf" "" true false "t0" []]

/-- Witness for C5: a concrete malformed upload leaves the concrete forest
intact; a concrete well-formed upload replaces it. -/
theorem C5_import_atomic_witness :
    importTasks rootsExample none = (rootsExample, false) ∧
    importTasks rootsExample (some [recNoName]) = (rootsExample, false) ∧
    importTasks rootsExample
        (some [to_dict (TaskNode.mk "n" "new" "" false false "t1" [])]) =
      ([TaskNode.mk "n" "new" "" false false "t1" []], true) :=
  ⟨C5_import_atomic.1 rootsExample,
   C5_import_atomic.2.1 rootsExample [recNoName] "KeyError: name"
     (by simp [recNoName, fromDictList, from_dict]),
   C5_import_atomic.2.2 rootsExample _ _
     (by simp [fromDictList, from_dict_to_dict])⟩

/-- A record with every required key but no `created_at`. -/
def recNoCreated : Rec :=
  Rec.mk (some "a") (some "n") (some "") (some false) (some false) none (some [])

/-- A record with every required key but no `is_expanded`. -/
def recNoExpanded : Rec :=
  Rec.mk (some "a") (some "n") (some "") (some false) none (some "t0") (some [])

/-- C8: evaluation of `from_dict` at the failing input.  A record missing
`is_expanded` does deserialize, defaulting the flag to `false`; but a record
missing `created_at` does *not* deserialize with a defaulted timestamp — the
code passes `data.get("created_at")` (i.e. `None`) to
`datetime.fromisoformat`, which raises, so deserialization errors out. -/
theorem C8_missing_created_at_fails :
    from_dict recNoExpanded =
      Except.ok (TaskNode.mk "a" "n" "" false false "t0" []) ∧
    from_dict recNoCreated =
      Except.error "TypeError: fromisoformat argument must be str" := by
  constructor
  · simp [recNoExpanded, from_dict, fromisoformat, fromDictList]
  · simp [recNoCreated, from_dict, fromisoformat]

/-! ### Lookup / removal lemmas for the delete action -/

theorem find_self (t : TaskNode) (i : String) (h : t.task_id = i) :
    find_task_by_id t i = some t := by
  cases t with
  | mk tid nm ds fl ex ca ch =>
    simp [TaskNode.task_id] at h
    simp [find_task_by_id, h]

mutual

theorem find_by_id_none : ∀ (t : TaskNode) (j : String),
    j ∉ subtreeIds t → find_task_by_id t j = none
  | TaskNode.mk tid nm ds fl ex ca ch, j => fun hj => by
      have htid : ¬ tid = j := by
        intro h
        exact hj (by simp [subtreeIds, h])
      have hch : j ∉ forestIds ch := by
        intro h
        exact hj (by simp [subtreeIds, h])
      simp [find_task_by_id, htid, findInChildren_none ch j hch]

theorem findInChildren_none : ∀ (ts : List TaskNode) (j : String),
    j ∉ forestIds ts → findInChildren ts j = none
  | [], j => fun _ => by simp [findInChildren]
  | t :: ts, j => fun hj => by
      have h1 : j ∉ subtreeIds t := fun h => hj (by simp [forestIds, h])
      have h2 : j ∉ forestIds ts := fun h => hj (by simp [forestIds, h])
      simp [findInChildren, find_by_id_none t j h1, findInChildren_none ts j h2]

end

mutual

theorem subtreeIds_of_find : ∀ (t : TaskNode) (i : String) (n : TaskNode),
    find_task_by_id t i = some n → subtreeIds n ⊆ subtreeIds t
  | TaskNode.mk tid nm ds fl ex ca ch, i, n => fun hfind => by
      by_cases htid : tid = i
      · subst htid
        simp [find_task_by_id] at hfind
        subst hfind
        exact fun j hj => hj
      · simp [find_task_by_id, htid] at hfind
        intro j hj
        have := subtreeIds_of_findInChildren ch i n hfind hj
        simp [subtreeIds, this]

theorem subtreeIds_of_findInChildren : ∀ (ts : List TaskNode) (i : String)
    (n : TaskNode), findInChildren ts i = some n → subtreeIds n ⊆ forestIds ts
  | [], i, n => fun hfind => by simp [findInChildren] at hfind
  | t :: ts, i, n => fun hfind => by
      cases hft : find_task_by_id t i with
      | some f =>
        simp [findInChildren, hft] at hfind
        subst hfind
        intro j hj
        have := subtreeIds_of_find t i f hft hj
        simp [forestIds, this]
      | none =>
        simp [findInChildren, hft] at hfind
        intro j hj
        have := subtreeIds_of_findInChildren ts i n hfind hj
        simp [forestIds, this]

end

mutual

theorem removeInNode_not_mem : ∀ (t : TaskNode) (i : String) (n : TaskNode),
    (subtreeIds t).Nodup → find_task_by_id t i = some n → ¬ t.task_id = i →
    ∀ j ∈ subtreeIds n, j ∉ subtreeIds (removeInNode t i)
  | TaskNode.mk tid nm ds fl ex ca ch, i, n => fun hnd hfind htid j hj => by
      simp [TaskNode.task_id] at htid
      simp [find_task_by_id, htid] at hfind
      simp [subtreeIds] at hnd
      have hj' : j ∈ forestIds ch :=
        subtreeIds_of_findInChildren ch i n hfind hj
      simp [removeInNode, subtreeIds]
      constructor
      · intro hjt
        exact hnd.1 (hjt ▸ hj')
      · exact removeFromForest_not_mem ch i n hnd.2 hfind j hj

theorem removeFromForest_not_mem : ∀ (ts : List TaskNode) (i : String)
    (n : TaskNode), (forestIds ts).Nodup → findInChildren ts i = some n →
    ∀ j ∈ subtreeIds n, j ∉ forestIds (removeFromForest ts i)
  | [], i, n => fun _ hfind => by simp [findInChildren] at hfind
  | t :: ts, i, n => fun hnd hfind j hj => by
      simp [forestIds] at hnd
      have hndt : (subtreeIds t).Nodup := hnd.of_append_left
      have hndts : (forestIds ts).Nodup := hnd.of_append_right
      have hdisj : (subtreeIds t).Disjoint (forestIds ts) :=
        List.disjoint_of_nodup_append hnd
      by_cases h1 : t.task_id = i
      · have hft : find_task_by_id t i = some t := find_self t i h1
        simp [findInChildren, hft] at hfind
        subst hfind
        simp [removeFromForest, h1, forestIds]
        exact hdisj hj
      · by_cases h2 : (find_task_by_id t i).isSome
        · obtain ⟨f, hf⟩ := Option.isSome_iff_exists.mp h2
          simp [findInChildren, hf] at hfind
          subst hfind
          simp [removeFromForest, h1, hf, forestIds]
          constructor
          · exact removeInNode_not_mem t i f hndt hf h1 j hj
          · intro hmem
            exact hdisj (subtreeIds_of_find t i f hf hj) hmem
        · have hftn : find_task_by_id t i = none :=
            Option.not_isSome_iff_eq_none.mp h2
          simp [findInChildren, hftn] at hfind
          simp [removeFromForest, h1, hftn, forestIds]
          constructor
          · intro hmem
            exact hdisj hmem (subtreeIds_of_findInChildren ts i n hfind hj)
          · exact removeFromForest_not_mem ts i n hndts hfind j hj

end

/-- C9: the delete action detaches the addressed node together with its
entire subtree (from its parent's child list when it has a parent, from the
root list when it is a root); afterwards the forest lookup returns not-found
for the removed node's id and for every id of its subtree.  Ids are assumed
unique across the forest (invariant I3; they are freshly generated UUIDs). -/
theorem C9_remove_detaches_subtree (ts : List TaskNode) (i : String)
    (n : TaskNode) (hnd : (forestIds ts).Nodup)
    (hfind : find_task_in_list ts i = some n) :
    ∀ j ∈ subtreeIds n, find_task_in_list (removeFromForest ts i) j = none := by
  intro j hj
  exact findInChildren_none _ j (removeFromForest_not_mem ts i n hnd hfind j hj)

/-- The subtree rooted at "a" inside the witness forest for C9. -/
def nodeA : TaskNode :=
  TaskNode.mk "a" "mid" "" false false "t1" [TaskNode.mk "b" "leaf" "" true false "t2" []]

/-- A three-level, single-chain witness forest: root "r" → "a" → "b". -/
def forest9 : List TaskNode :=
  [TaskNode.mk "r" "root" "" false false "t0" [nodeA]]

/-- Witness for C9: deleting "a" from the concrete forest makes both "a" and
its descendant "b" unfindable. -/
theorem C9_remove_detaches_subtree_witness :
    find_task_in_list (removeFromForest forest9 "a") "a" = none ∧
    find_task_in_list (removeFromForest forest9 "a") "b" = none := by
  have hnd : (forestIds forest9).Nodup := by
    simp [forest9, nodeA, forestIds, subtreeIds]
  have hfind : find_task_in_list forest9 "a" = some nodeA := by
    simp [forest9, nodeA, find_task_in_list, findInChildren, find_task_by_id]
  refine ⟨?_, ?_⟩
  · exact C9_remove_detaches_subtree forest9 "a" nodeA hnd hfind "a"
      (by simp [nodeA, subtreeIds, forestIds])
  · exact C9_remove_detaches_subtree forest9 "a" nodeA hnd hfind "b"
      (by simp [nodeA, subtreeIds, forestIds])

/-! ### Claims on the heap layer -/

/-- C3: writing the completion flag of a node that has at least one child is
refused with the `NotALeaf` outcome and changes nothing at all — the whole
object graph, the node's stored raw flag included, is returned as it was;
on a leaf the given value is stored in the raw flag and nothing else
changes. -/
theorem C3_setter_not_a_leaf (h : Heap) (c : Nat) (nc : Node) (v : Bool)
    (hc : h.nodes c = some nc) :
    (nc.children ≠ [] → setCompleted h c v = (h, SetResult.notALeaf)) ∧
    (nc.children = [] →
      setCompleted h c v =
        (setNode h c { nc with rawCompleted := v }, SetResult.ok)) := by
  constructor <;> intro hch <;> simp [setCompleted, hc, hch]

/-- The leaf object of the two-node witness heap (child of object 1). -/
def nodeLeaf : Node :=
  { name := "leaf", description := "", rawCompleted := false,
    expanded := false, createdAt := "t1", parent := some 1, children := [] }

/-- The root object of the two-node witness heap (one child, object 2). -/
def nodeRoot : Node :=
  { name := "root", description := "", rawCompleted := false,
    expanded := false, createdAt := "t0", parent := none, children := [2] }

/-- A two-object heap: root 1 with single child 2. -/
def heap0 : Heap :=
  { nodes := fun j => if j = 1 then some nodeRoot
             else if j = 2 then some nodeLeaf else none,
    roots := [1] }

/-- Witness for C3 on the concrete two-node heap. -/
theorem C3_setter_not_a_leaf_witness :
    setCompleted heap0 1 true = (heap0, SetResult.notALeaf) ∧
    setCompleted heap0 2 true =
      (setNode heap0 2 { nodeLeaf with rawCompleted := true }, SetResult.ok) :=
  ⟨(C3_setter_not_a_leaf heap0 1 nodeRoot true rfl).1 (by simp [nodeRoot]),
   (C3_setter_not_a_leaf heap0 2 nodeLeaf true rfl).2 rfl⟩

/-- C6: every declined reparenting refusal is a `false` result with the heap
returned exactly as it was: promote on a node with no parent, promote on a
node whose parent has no parent, demote on a node with no parent, demote
with a negative index, demote with an index beyond the sibling list, and
demote whose indexed sibling is the node itself. -/
theorem C6_reparent_declined :
    (∀ (h : Heap) (c : Nat) (nc : Node), h.nodes c = some nc →
      nc.parent = none → promote h c = (h, false)) ∧
    (∀ (h : Heap) (c p : Nat) (nc np : Node), h.nodes c = some nc →
      nc.parent = some p → h.nodes p = some np → np.parent = none →
      promote h c = (h, false)) ∧
    (∀ (h : Heap) (c : Nat) (nc : Node) (i : Int), h.nodes c = some nc →
      nc.parent = none → demote h c i = (h, false)) ∧
    (∀ (h : Heap) (c p : Nat) (nc np : Node) (i : Int), h.nodes c = some nc →
      nc.parent = some p → h.nodes p = some np → i < 0 →
      demote h c i = (h, false)) ∧
    (∀ (h : Heap) (c p : Nat) (nc np : Node) (i : Int), h.nodes c = some nc →
      nc.parent = some p → h.nodes p = some np →
      np.children[i.toNat]? = none → demote h c i = (h, false)) ∧
    (∀ (h : Heap) (c p : Nat) (nc np : Node) (i : Int), h.nodes c = some nc →
      nc.parent = some p → h.nodes p = some np →
      np.children[i.toNat]? = some c → demote h c i = (h, false)) := by
  refine ⟨?_, ?_, ?_, ?_, ?_, ?_⟩
  · intro h c nc hc hpar
    simp [promote, hc, hpar]
  · intro h c p nc np hc hpar hp hgp
    simp [promote, hc, hpar, hp, hgp]
  · intro h c nc i hc hpar
    simp [demote, hc, hpar]
  · intro h c p nc np i hc hpar hp hneg
    simp [demote, hc, hpar, hp, hneg]
  · intro h c p nc np i hc hpar hp hoob
    by_cases hneg : i < 0
    · simp [demote, hc, hpar, hp, hneg]
    · simp [demote, hc, hpar, hp, hneg, hoob]
  · intro h c p nc np i hc hpar hp hself
    by_cases hneg : i < 0
    · simp [demote, hc, hpar, hp, hneg]
    · simp [demote, hc, hpar, hp, hneg, hself]

/-- A three-object heap: root 1 with children 2 and 3 (both leaves). -/
def heap1 : Heap :=
  { nodes := fun j => if j = 1 then some { nodeRoot with children := [2, 3] }
             else if j = 2 then some nodeLeaf
             else if j = 3 then some nodeLeaf else none,
    roots := [1] }

/-- Witness for C6: all six refusal shapes on the concrete heap. -/
theorem C6_reparent_declined_witness :
    promote heap1 1 = (heap1, false) ∧
    promote heap1 2 = (heap1, false) ∧
    demote heap1 1 0 = (heap1, false) ∧
    demote heap1 2 (-1) = (heap1, false) ∧
    demote heap1 2 5 = (heap1, false) ∧
    demote heap1 2 0 = (heap1, false) :=
  ⟨C6_reparent_declined.1 heap1 1 _ rfl rfl,
   C6_reparent_declined.2.1 heap1 2 1 _ _ rfl rfl rfl rfl,
   C6_reparent_declined.2.2.1 heap1 1 _ 0 rfl rfl,
   C6_reparent_declined.2.2.2.1 heap1 2 1 _ _ (-1) rfl rfl rfl (by decide),
   C6_reparent_declined.2.2.2.2.1 heap1 2 1 _ _ 5 rfl rfl rfl (by decide),
   C6_reparent_declined.2.2.2.2.2 heap1 2 1 _ _ 0 rfl rfl rfl (by decide)⟩

/-- C7: promote on a node `c` at depth ≥ 2 — live parent `p`, live
grandparent `g` — succeeds: it removes `c` from `p`'s children, appends `c`
at the end of `g`'s children, repoints `c`'s parent at `g` while keeping
every other field of `c` (in particular its own children list, hence its
subtree), leaves every object other than `c`, `p`, `g` untouched, leaves the
root list untouched, and reports `true`.  The three objects are distinct
(automatic in the acyclic live forest). -/
theorem C7_promote_moves_to_grandparent (h : Heap) (c p g : Nat)
    (nc np ng : Node) (hc : h.nodes c = some nc) (hpar : nc.parent = some p)
    (hp : h.nodes p = some np) (hgp : np.parent = some g)
    (hg : h.nodes g = some ng) (hcp : c ≠ p) (hcg : c ≠ g) (hpg : p ≠ g)
    (hmem : c ∈ np.children) :
    (promote h c).2 = true ∧
    (promote h c).1.nodes c = some { nc with parent := some g } ∧
    (promote h c).1.nodes p = some { np with children := np.children.erase c } ∧
    (promote h c).1.nodes g = some { ng with children := ng.children ++ [c] } ∧
    (∀ d, d ≠ c → d ≠ p → d ≠ g → (promote h c).1.nodes d = h.nodes d) ∧
    (promote h c).1.roots = h.roots := by
  have h1eq : removeChild h p c =
      setNode h p { np with children := np.children.erase c } := by
    simp [removeChild, hp, hmem]
  have h1g : (removeChild h p c).nodes g = some ng := by
    rw [h1eq, setNode_nodes, if_neg (fun hh => hpg hh.symm)]
    exact hg
  have h2c : (setNode (removeChild h p c) g
      { ng with children := ng.children ++ [c] }).nodes c = some nc := by
    rw [setNode_nodes, if_neg hcg, h1eq, setNode_nodes, if_neg hcp]
    exact hc
  have hpr : promote h c =
      (setNode (setNode (removeChild h p c) g
          { ng with children := ng.children ++ [c] }) c
        { nc with parent := some g }, true) := by
    simp [promote, hc, hpar, hp, hgp, h1g, h2c]
  rw [hpr]
  refine ⟨rfl, ?_, ?_, ?_, ?_, ?_⟩
  · simp [setNode_nodes]
  · rw [setNode_nodes, if_neg hcp.symm, setNode_nodes, if_neg hpg, h1eq,
      setNode_nodes, if_pos rfl]
  · rw [setNode_nodes, if_neg hcg.symm, setNode_nodes, if_pos rfl]
  · intro d hdc hdp hdg
    rw [setNode_nodes, if_neg hdc, setNode_nodes, if_neg hdg, h1eq,
      setNode_nodes, if_neg hdp]
  · simp [setNode_roots, h1eq]

/-- A four-object chain heap: root 1 → 2 → 3, plus 4 a second child of 1. -/
def heap2 : Heap :=
  { nodes := fun j =>
      if j = 1 then some { nodeRoot with children := [2, 4] }
      else if j = 2 then some { nodeLeaf with name := "mid", children := [3] }
      else if j = 3 then some { nodeLeaf with parent := some 2 }
      else if j = 4 then some nodeLeaf
      else none,
    roots := [1] }

/-- Witness for C7: promoting object 3 (child of 2, grandchild of 1) in the
concrete chain heap. -/
theorem C7_promote_moves_to_grandparent_witness :
    (promote heap2 3).2 = true ∧
    (promote heap2 3).1.nodes 3 =
      some { nodeLeaf with parent := some 1 } ∧
    (promote heap2 3).1.nodes 2 =
      some { nodeLeaf with name := "mid", children := [] } ∧
    (promote heap2 3).1.nodes 1 =
      some { nodeRoot with children := [2, 4, 3] } ∧
    (promote heap2 3).1.nodes 4 = heap2.nodes 4 ∧
    (promote heap2 3).1.roots = heap2.roots := by
  have main := C7_promote_moves_to_grandparent heap2 3 2 1 _ _ _
    rfl rfl rfl rfl rfl (by decide) (by decide) (by decide) (by decide)
  exact ⟨main.1, main.2.1.trans (by decide), main.2.2.1.trans (by decide),
    main.2.2.2.1.trans (by decide),
    main.2.2.2.2.1 4 (by decide) (by decide) (by decide), main.2.2.2.2.2⟩

/-! ### Raw-flag preservation lemmas -/

theorem rawMap_setNode (h : Heap) (i : Nat) (n : Node) (x : Nat) :
    ((setNode h i n).nodes x).map Node.rawCompleted =
      if x = i then some n.rawCompleted
      else (h.nodes x).map Node.rawCompleted := by
  rw [setNode_nodes]
  split_ifs <;> rfl

theorem rawMap_setNode_same (h : Heap) (i : Nat) (ni n' : Node)
    (hi : h.nodes i = some ni) (hraw : n'.rawCompleted = ni.rawCompleted)
    (x : Nat) :
    ((setNode h i n').nodes x).map Node.rawCompleted =
      (h.nodes x).map Node.rawCompleted := by
  rw [rawMap_setNode]
  split_ifs with hx
  · subst hx
    rw [hi, hraw]
    rfl
  · rfl

theorem rawMap_removeChild (h : Heap) (p c x : Nat) :
    ((removeChild h p c).nodes x).map Node.rawCompleted =
      (h.nodes x).map Node.rawCompleted := by
  cases hp : h.nodes p with
  | none => simp [removeChild, hp]
  | some np =>
    by_cases hm : c ∈ np.children
    · simp only [removeChild, hp]
      rw [if_pos hm]
      exact rawMap_setNode_same h p np
        { np with children := np.children.erase c } hp rfl x
    · simp [removeChild, hp, hm]

theorem rawMap_removeSelf (h : Heap) (c x : Nat) :
    ((removeSelf h c).nodes x).map Node.rawCompleted =
      (h.nodes x).map Node.rawCompleted := by
  cases hc : h.nodes c with
  | none => simp [removeSelf, hc]
  | some nc =>
    cases hpar : nc.parent with
    | none => simp [removeSelf, hc, hpar]
    | some p =>
      simp only [removeSelf, hc, hpar]
      exact rawMap_removeChild h p c x

theorem rawMap_deleteTask (h : Heap) (c x : Nat) :
    ((deleteTask h c).nodes x).map Node.rawCompleted =
      (h.nodes x).map Node.rawCompleted := by
  cases hc : h.nodes c with
  | none => simp [deleteTask, hc]
  | some nc =>
    cases hpar : nc.parent with
    | none => simp [deleteTask, hc, hpar]
    | some p =>
      simp only [deleteTask, hc, hpar]
      exact rawMap_removeSelf h c x

theorem rawMap_promote (h : Heap) (c x : Nat) :
    (((promote h c).1).nodes x).map Node.rawCompleted =
      (h.nodes x).map Node.rawCompleted := by
  cases hc : h.nodes c with
  | none => simp [promote, hc]
  | some nc =>
    cases hpar : nc.parent with
    | none => simp [promote, hc, hpar]
    | some p =>
      cases hp : h.nodes p with
      | none => simp [promote, hc, hpar, hp]
      | some np =>
        cases hgp : np.parent with
        | none => simp [promote, hc, hpar, hp, hgp]
        | some g =>
          cases hg1 : (removeChild h p c).nodes g with
          | none =>
            cases hc2 : (removeChild h p c).nodes c with
            | none =>
              simp only [promote, hc, hpar, hp, hgp, hg1, hc2]
              exact rawMap_removeChild h p c x
            | some nc2 =>
              simp only [promote, hc, hpar, hp, hgp, hg1, hc2]
              rw [rawMap_setNode_same _ c nc2
                { nc2 with parent := some g } hc2 rfl x]
              exact rawMap_removeChild h p c x
          | some ng =>
            cases hc2 : (setNode (removeChild h p c) g
                { ng with children := ng.children ++ [c] }).nodes c with
            | none =>
              simp only [promote, hc, hpar, hp, hgp, hg1, hc2]
              rw [rawMap_setNode_same _ g ng
                { ng with children := ng.children ++ [c] } hg1 rfl x]
              exact rawMap_removeChild h p c x
            | some nc2 =>
              simp only [promote, hc, hpar, hp, hgp, hg1, hc2]
              rw [rawMap_setNode_same _ c nc2
                { nc2 with parent := some g } hc2 rfl x,
                rawMap_setNode_same _ g ng
                { ng with children := ng.children ++ [c] } hg1 rfl x]
              exact rawMap_removeChild h p c x

theorem rawMap_demote (h : Heap) (c : Nat) (i : Int) (x : Nat) :
    (((demote h c i).1).nodes x).map Node.rawCompleted =
      (h.nodes x).map Node.rawCompleted := by
  cases hc : h.nodes c with
  | none => simp [demote, hc]
  | some nc =>
    cases hpar : nc.parent with
    | none => simp [demote, hc, hpar]
    | some p =>
      cases hp : h.nodes p with
      | none => simp [demote, hc, hpar, hp]
      | some np =>
        by_cases hneg : i < 0
        · simp [demote, hc, hpar, hp, hneg]
        · cases hidx : np.children[i.toNat]? with
          | none => simp [demote, hc, hpar, hp, hneg, hidx]
          | some t =>
            by_cases hself : t = c
            · simp [demote, hc, hpar, hp, hneg, hidx, hself]
            · cases ht1 : (removeChild h p c).nodes t with
              | none =>
                cases hc2 : (removeChild h p c).nodes c with
                | none =>
                  simp only [demote, hc, hpar, hp, if_neg hneg, hidx,
                    if_neg hself, ht1, hc2]
                  exact rawMap_removeChild h p c x
                | some nc2 =>
                  simp only [demote, hc, hpar, hp, if_neg hneg, hidx,
                    if_neg hself, ht1, hc2]
                  rw [rawMap_setNode_same _ c nc2
                    { nc2 with parent := some t } hc2 rfl x]
                  exact rawMap_removeChild h p c x
              | some nt =>
                cases hc2 : (setNode (removeChild h p c) t
                    { nt with children := nt.children ++ [c] }).nodes c with
                | none =>
                  simp only [demote, hc, hpar, hp, if_neg hneg, hidx,
                    if_neg hself, ht1, hc2]
                  rw [rawMap_setNode_same _ t nt
                    { nt with children := nt.children ++ [c] } ht1 rfl x]
                  exact rawMap_removeChild h p c x
                | some nc2 =>
                  simp only [demote, hc, hpar, hp, if_neg hneg, hidx,
                    if_neg hself, ht1, hc2]
                  rw [rawMap_setNode_same _ c nc2
                    { nc2 with parent := some t } hc2 rfl x,
                    rawMap_setNode_same _ t nt
                    { nt with children := nt.children ++ [c] } ht1 rfl x]
                  exact rawMap_removeChild h p c x

theorem rawMap_toggleExpand (h : Heap) (c x : Nat) :
    ((toggleExpand h c).nodes x).map Node.rawCompleted =
      (h.nodes x).map Node.rawCompleted := by
  cases hc : h.nodes c with
  | none => simp [toggleExpand, hc]
  | some nc =>
    simp only [toggleExpand, hc]
    exact rawMap_setNode_same h c nc
      { nc with expanded := !nc.expanded } hc rfl x

/-- C10: no engine operation writes the stored raw flag of a node that has
at least one child — the setter refuses, and add-child, delete, promote,
demote and toggle-expand never touch any raw flag (add-child assumes the
fresh id is actually fresh, as a generated UUID is).  Consequently the raw
flag a node held before acquiring children is still there when it loses its
last child, and — second conjunct — a node without children answers exactly
its stored raw flag to the completion query. -/
theorem C10_raw_flag_of_parent_stable :
    (∀ (h : Heap) (x : Nat) (nx : Node), h.nodes x = some nx →
      nx.children ≠ [] →
      (∀ (c : Nat) (v : Bool),
        (((setCompleted h c v).1).nodes x).map Node.rawCompleted =
          some nx.rawCompleted) ∧
      (∀ (p z : Nat) (nm ds ca : String), h.nodes z = none →
        ((addChild h p z nm ds ca).nodes x).map Node.rawCompleted =
          some nx.rawCompleted) ∧
      (∀ c : Nat, ((deleteTask h c).nodes x).map Node.rawCompleted =
          some nx.rawCompleted) ∧
      (∀ c : Nat, (((promote h c).1).nodes x).map Node.rawCompleted =
          some nx.rawCompleted) ∧
      (∀ (c : Nat) (i : Int),
        (((demote h c i).1).nodes x).map Node.rawCompleted =
          some nx.rawCompleted) ∧
      (∀ c : Nat, ((toggleExpand h c).nodes x).map Node.rawCompleted =
          some nx.rawCompleted)) ∧
    (∀ (h : Heap) (x : Nat) (nx : Node) (fuel : Nat), h.nodes x = some nx →
      nx.children = [] → isCompletedH h x (fuel + 1) = nx.rawCompleted) := by
  constructor
  · intro h x nx hx hch
    have hbase : (h.nodes x).map Node.rawCompleted = some nx.rawCompleted := by
      rw [hx]
      rfl
    refine ⟨?_, ?_, ?_, ?_, ?_, ?_⟩
    · intro c v
      cases hc : h.nodes c with
      | none => simp only [setCompleted, hc]; exact hbase
      | some nc =>
        by_cases hleaf : nc.children = []
        · have hxc : x ≠ c := by
            intro hh
            subst hh
            rw [hx] at hc
            injection hc with hh2
            subst hh2
            exact hch hleaf
          simp only [setCompleted, hc]
          rw [if_pos hleaf]
          simp only []
          rw [rawMap_setNode, if_neg hxc]
          exact hbase
        · simp only [setCompleted, hc]
          rw [if_neg hleaf]
          exact hbase
    · intro p z nm ds ca hz
      cases hp : h.nodes p with
      | none => simp only [addChild, hp]; exact hbase
      | some np =>
        have hxz : x ≠ z := by
          intro hh
          rw [hh, hz] at hx
          cases hx
        simp only [addChild, hp]
        by_cases hxp : x = p
        · subst hxp
          rw [rawMap_setNode, if_pos rfl]
          rw [hx] at hp
          injection hp with hp2
          subst hp2
          rfl
        · rw [rawMap_setNode, if_neg hxp, rawMap_setNode, if_neg hxz]
          exact hbase
    · intro c
      rw [rawMap_deleteTask]
      exact hbase
    · intro c
      rw [rawMap_promote]
      exact hbase
    · intro c i
      rw [rawMap_demote]
      exact hbase
    · intro c
      rw [rawMap_toggleExpand]
      exact hbase
  · intro h x nx fuel hx hch
    simp [isCompletedH, hx, hch]

/-- Witness for C10 on the concrete two-node heap: no operation moves the
raw flag of the non-leaf object 1, and the leaf object 2 answers its raw
flag. -/
theorem C10_raw_flag_of_parent_stable_witness :
    (((setCompleted heap0 1 true).1).nodes 1).map Node.rawCompleted =
      some nodeRoot.rawCompleted ∧
    ((addChild heap0 1 7 "n" "" "t2").nodes 1).map Node.rawCompleted =
      some nodeRoot.rawCompleted ∧
    ((deleteTask heap0 2).nodes 1).map Node.rawCompleted =
      some nodeRoot.rawCompleted ∧
    isCompletedH heap0 2 1 = nodeLeaf.rawCompleted := by
  have main := C10_raw_flag_of_parent_stable.1 heap0 1 nodeRoot rfl
    (by simp [nodeRoot])
  exact ⟨main.1 1 true, main.2.1 1 7 "n" "" "t2" rfl, main.2.2.1 2,
    C10_raw_flag_of_parent_stable.2 heap0 2 nodeLeaf 0 rfl rfl⟩

/-! ### Parent-consistency lemmas -/

/-- Consistency is preserved by a reparenting move: `c` (live, child of a
live `p`) is erased from `p`'s children, appended to the children of a live
`t`, and repointed at `t`; everything else is untouched.  Both `promote`
(with `t` the grandparent) and `demote` (with `t` the target sibling) leave
the heap in this shape. -/
theorem consistent_move (h h' : Heap) (c p t : Nat) (nc np nt : Node)
    (hcon : consistent h) (hnd : nodupChildren h)
    (hc : h.nodes c = some nc) (hpar : nc.parent = some p)
    (hp : h.nodes p = some np) (ht : h.nodes t = some nt)
    (hcp : c ≠ p) (hct : c ≠ t) (hpt : p ≠ t)
    (hn_c : h'.nodes c = some { nc with parent := some t })
    (hn_t : h'.nodes t = some { nt with children := nt.children ++ [c] })
    (hn_p : h'.nodes p = some { np with children := np.children.erase c })
    (hn_other : ∀ j, j ≠ c → j ≠ t → j ≠ p → h'.nodes j = h.nodes j) :
    consistent h' := by
  have hndp : np.children.Nodup := hnd p np hp
  intro P nP C nC hP hC
  by_cases hCc : C = c
  · rw [hCc] at hC ⊢
    rw [hn_c] at hC
    injection hC with hC
    subst hC
    by_cases hPt : P = t
    · rw [hPt] at hP ⊢
      rw [hn_t] at hP
      injection hP with hP
      subst hP
      simp
    · by_cases hPc : P = c
      · rw [hPc] at hP ⊢
        rw [hn_c] at hP
        injection hP with hP
        subst hP
        have hnotin : c ∉ nc.children := by
          intro hmm
          have h2 := (hcon c nc c nc hc hc).mpr hmm
          rw [hpar] at h2
          injection h2 with h2
          exact hcp h2.symm
        simp [hnotin]
        intro h3
        exact absurd h3 (Ne.symm hct)
      · by_cases hPp : P = p
        · rw [hPp] at hP ⊢
          rw [hn_p] at hP
          injection hP with hP
          subst hP
          have h1 : c ∉ np.children.erase c := hndp.not_mem_erase
          simp [h1]
          intro h3
          exact absurd h3 (Ne.symm hpt)
        · rw [hn_other P hPc hPt hPp] at hP
          have h2 := (hcon P nP c nc hP hc).symm
          rw [hpar] at h2
          constructor
          · intro h3
            have h3' : some t = some P := h3
            injection h3' with h3'
            exact absurd h3'.symm hPt
          · intro h3
            have h4 := h2.mp h3
            injection h4 with h4
            exact absurd h4.symm hPp
  · have hCorig : ∃ nC0, h.nodes C = some nC0 ∧ nC0.parent = nC.parent := by
      by_cases hCt : C = t
      · rw [hCt] at hC
        rw [hn_t] at hC
        injection hC with hC
        subst hC
        rw [hCt]
        exact ⟨nt, ht, rfl⟩
      · by_cases hCp : C = p
        · rw [hCp] at hC
          rw [hn_p] at hC
          injection hC with hC
          subst hC
          rw [hCp]
          exact ⟨np, hp, rfl⟩
        · rw [hn_other C hCc hCt hCp] at hC
          exact ⟨nC, hC, rfl⟩
    obtain ⟨nC0, hC0, hC0par⟩ := hCorig
    rw [← hC0par]
    by_cases hPt : P = t
    · rw [hPt] at hP ⊢
      rw [hn_t] at hP
      injection hP with hP
      subst hP
      have h5 := hcon t nt C nC0 ht hC0
      constructor
      · intro h6
        have h7 : C ∈ nt.children ++ [c] := List.mem_append.mpr (Or.inl (h5.mp h6))
        exact h7
      · intro h6
        have h6' : C ∈ nt.children ++ [c] := h6
        rcases List.mem_append.mp h6' with h7 | h7
        · exact h5.mpr h7
        · exact absurd (List.mem_singleton.mp h7) hCc
    · by_cases hPc : P = c
      · rw [hPc] at hP ⊢
        rw [hn_c] at hP
        injection hP with hP
        subst hP
        exact hcon c nc C nC0 hc hC0
      · by_cases hPp : P = p
        · rw [hPp] at hP ⊢
          rw [hn_p] at hP
          injection hP with hP
          subst hP
          have h8 := hcon p np C nC0 hp hC0
          constructor
          · intro h6
            exact (List.mem_erase_of_ne hCc).mpr (h8.mp h6)
          · intro h6
            have h6' : C ∈ np.children.erase c := h6
            exact h8.mpr ((List.mem_erase_of_ne hCc).mp h6')
        · rw [hn_other P hPc hPt hPp] at hP
          exact hcon P nP C nC0 hP hC0

/-- The heap shape after a successful `promote`. -/
theorem promote_shape (h : Heap) (c p g : Nat) (nc np ng : Node)
    (hc : h.nodes c = some nc) (hpar : nc.parent = some p)
    (hp : h.nodes p = some np) (hgp : np.parent = some g)
    (hg : h.nodes g = some ng) (hcp : c ≠ p) (hcg : c ≠ g) (hpg : p ≠ g)
    (hmem : c ∈ np.children) :
    (promote h c).1.nodes c = some { nc with parent := some g } ∧
    (promote h c).1.nodes g = some { ng with children := ng.children ++ [c] } ∧
    (promote h c).1.nodes p =
      some { np with children := np.children.erase c } ∧
    (∀ d, d ≠ c → d ≠ g → d ≠ p → (promote h c).1.nodes d = h.nodes d) := by
  have h1eq : removeChild h p c =
      setNode h p { np with children := np.children.erase c } := by
    simp [removeChild, hp, hmem]
  have h1g : (removeChild h p c).nodes g = some ng := by
    rw [h1eq, setNode_nodes, if_neg (fun hh => hpg hh.symm)]
    exact hg
  have h2c : (setNode (removeChild h p c) g
      { ng with children := ng.children ++ [c] }).nodes c = some nc := by
    rw [setNode_nodes, if_neg hcg, h1eq, setNode_nodes, if_neg hcp]
    exact hc
  have hpr : promote h c =
      (setNode (setNode (removeChild h p c) g
          { ng with children := ng.children ++ [c] }) c
        { nc with parent := some g }, true) := by
    simp [promote, hc, hpar, hp, hgp, h1g, h2c]
  rw [hpr]
  refine ⟨?_, ?_, ?_, ?_⟩
  · simp [setNode_nodes]
  · rw [setNode_nodes, if_neg hcg.symm, setNode_nodes, if_pos rfl]
  · rw [setNode_nodes, if_neg hcp.symm, setNode_nodes, if_neg hpg, h1eq,
      setNode_nodes, if_pos rfl]
  · intro d hdc hdg hdp
    rw [setNode_nodes, if_neg hdc, setNode_nodes, if_neg hdg, h1eq,
      setNode_nodes, if_neg hdp]

/-- The heap shape after a successful `demote`. -/
theorem demote_shape (h : Heap) (c : Nat) (i : Int) (p t : Nat)
    (nc np nt : Node) (hc : h.nodes c = some nc) (hpar : nc.parent = some p)
    (hp : h.nodes p = some np) (hneg : ¬ i < 0)
    (hidx : np.children[i.toNat]? = some t) (hself : ¬ t = c)
    (ht : h.nodes t = some nt) (hcp : c ≠ p) (hpt : p ≠ t)
    (hmem : c ∈ np.children) :
    (demote h c i).1.nodes c = some { nc with parent := some t } ∧
    (demote h c i).1.nodes t = some { nt with children := nt.children ++ [c] } ∧
    (demote h c i).1.nodes p =
      some { np with children := np.children.erase c } ∧
    (∀ d, d ≠ c → d ≠ t → d ≠ p → (demote h c i).1.nodes d = h.nodes d) := by
  have hct : c ≠ t := fun hh => hself hh.symm
  have h1eq : removeChild h p c =
      setNode h p { np with children := np.children.erase c } := by
    simp [removeChild, hp, hmem]
  have h1t : (removeChild h p c).nodes t = some nt := by
    rw [h1eq, setNode_nodes, if_neg (fun hh => hpt hh.symm)]
    exact ht
  have h2c : (setNode (removeChild h p c) t
      { nt with children := nt.children ++ [c] }).nodes c = some nc := by
    rw [setNode_nodes, if_neg hct, h1eq, setNode_nodes, if_neg hcp]
    exact hc
  have hpr : demote h c i =
      (setNode (setNode (removeChild h p c) t
          { nt with children := nt.children ++ [c] }) c
        { nc with parent := some t }, true) := by
    simp [demote, hc, hpar, hp, hneg, hidx, hself, h1t, h2c]
  rw [hpr]
  refine ⟨?_, ?_, ?_, ?_⟩
  · simp [setNode_nodes]
  · rw [setNode_nodes, if_neg hct.symm, setNode_nodes, if_pos rfl]
  · rw [setNode_nodes, if_neg hcp.symm, setNode_nodes, if_neg hpt, h1eq,
      setNode_nodes, if_pos rfl]
  · intro d hdc hdt hdp
    rw [setNode_nodes, if_neg hdc, setNode_nodes, if_neg hdt, h1eq,
      setNode_nodes, if_neg hdp]

/-- Consistency is preserved by `add_child` with a genuinely fresh id. -/
theorem consistent_addChild (h : Heap) (p z : Nat) (nm ds ca : String)
    (np : Node) (hcon : consistent h) (hp : h.nodes p = some np)
    (hz : h.nodes z = none)
    (hfresh : ∀ q nq, h.nodes q = some nq →
      z ∉ nq.children ∧ nq.parent ≠ some z) :
    consistent (addChild h p z nm ds ca) := by
  have hpz : p ≠ z := by
    intro hh
    rw [hh, hz] at hp
    cases hp
  have hshape : ∀ j, (addChild h p z nm ds ca).nodes j =
      if j = p then some { np with children := np.children ++ [z] }
      else if j = z then
        some { name := nm, description := ds, rawCompleted := false,
               expanded := false, createdAt := ca, parent := some p,
               children := [] }
      else h.nodes j := by
    intro j
    simp only [addChild, hp]
    rw [setNode_nodes, setNode_nodes]
  intro P nP C nC hP hC
  rw [hshape] at hP hC
  by_cases hCz : C = z
  · have hCp : ¬ C = p := by
      rw [hCz]
      intro hh
      exact hpz hh.symm
    rw [if_neg hCp, if_pos hCz] at hC
    injection hC with hC
    subst hC
    rw [hCz]
    by_cases hPp : P = p
    · rw [if_pos hPp] at hP
      injection hP with hP
      subst hP
      rw [hPp]
      simp
    · rw [if_neg hPp] at hP
      by_cases hPz : P = z
      · rw [if_pos hPz] at hP
        injection hP with hP
        subst hP
        constructor
        · intro h3
          have h3' : some p = some P := h3
          injection h3' with h3'
          exact absurd (h3'.trans hPz) hpz
        · intro h3
          exact absurd h3 (List.not_mem_nil z)
      · rw [if_neg hPz] at hP
        constructor
        · intro h3
          have h3' : some p = some P := h3
          injection h3' with h3'
          exact absurd h3'.symm hPp
        · intro h3
          exact absurd h3 ((hfresh P nP hP).1)
  · have hCrec : ∃ nC0, h.nodes C = some nC0 ∧ nC0.parent = nC.parent ∧
        (C ∈ np.children ↔ nC0.parent = some p) := by
      by_cases hCp : C = p
      · rw [if_pos hCp] at hC
        injection hC with hC
        subst hC
        refine ⟨np, hCp ▸ hp, rfl, ?_⟩
        exact (hcon p np C np (hCp ▸ hp) (hCp ▸ hp)).symm
      · rw [if_neg hCp, if_neg hCz] at hC
        refine ⟨nC, hC, rfl, ?_⟩
        exact (hcon p np C nC hp hC).symm
    obtain ⟨nC0, hC0, hC0par, hC0mem⟩ := hCrec
    rw [← hC0par]
    by_cases hPp : P = p
    · rw [if_pos hPp] at hP
      injection hP with hP
      subst hP
      rw [hPp]
      constructor
      · intro h3
        have h4 : C ∈ np.children ++ [z] :=
          List.mem_append.mpr (Or.inl (hC0mem.mpr h3))
        exact h4
      · intro h3
        have h3' : C ∈ np.children ++ [z] := h3
        rcases List.mem_append.mp h3' with h4 | h4
        · exact hC0mem.mp h4
        · exact absurd (List.mem_singleton.mp h4) hCz
    · rw [if_neg hPp] at hP
      by_cases hPz : P = z
      · rw [if_pos hPz] at hP
        injection hP with hP
        subst hP
        constructor
        · intro h3
          exact absurd (hPz ▸ h3) ((hfresh C nC0 hC0).2)
        · intro h3
          exact absurd h3 (List.not_mem_nil C)
      · rw [if_neg hPz] at hP
        exact hcon P nP C nC0 hP hC0

/-- The heap shape after deleting a node that has a live parent. -/
theorem deleteTask_parented_shape (h : Heap) (c p : Nat) (nc np : Node)
    (hc : h.nodes c = some nc) (hpar : nc.parent = some p)
    (hp : h.nodes p = some np) (hmem : c ∈ np.children) :
    (deleteTask h c).nodes p =
      some { np with children := np.children.erase c } ∧
    (∀ j, j ≠ p → (deleteTask h c).nodes j = h.nodes j) ∧
    (deleteTask h c).roots = h.roots := by
  have heq : deleteTask h c =
      setNode h p { np with children := np.children.erase c } := by
    simp [deleteTask, hc, hpar, removeSelf, removeChild, hp, hmem]
  rw [heq]
  refine ⟨?_, ?_, rfl⟩
  · rw [setNode_nodes, if_pos rfl]
  · intro j hj
    rw [setNode_nodes, if_neg hj]

/-- After deleting a parented node, every pair not involving the deleted
node still satisfies the parent-consistency biconditional. -/
theorem consistent_after_delete (h : Heap) (c p : Nat) (nc np : Node)
    (hcon : consistent h) (hc : h.nodes c = some nc)
    (hpar : nc.parent = some p) (hp : h.nodes p = some np) :
    ∀ P nP C nC, C ≠ c → (deleteTask h c).nodes P = some nP →
      (deleteTask h c).nodes C = some nC →
      (nC.parent = some P ↔ C ∈ nP.children) := by
  have hmem : c ∈ np.children := (hcon p np c nc hp hc).mp hpar
  obtain ⟨hsp, hso, _⟩ := deleteTask_parented_shape h c p nc np hc hpar hp hmem
  intro P nP C nC hCc hP hC
  have hCrec : ∃ nC0, h.nodes C = some nC0 ∧ nC0.parent = nC.parent := by
    by_cases hCp : C = p
    · rw [hCp] at hC
      rw [hsp] at hC
      injection hC with hC
      subst hC
      rw [hCp]
      exact ⟨np, hp, rfl⟩
    · rw [hso C hCp] at hC
      exact ⟨nC, hC, rfl⟩
  obtain ⟨nC0, hC0, hC0par⟩ := hCrec
  rw [← hC0par]
  by_cases hPp : P = p
  · rw [hPp] at hP ⊢
    rw [hsp] at hP
    injection hP with hP
    subst hP
    have h8 := hcon p np C nC0 hp hC0
    constructor
    · intro h6
      exact (List.mem_erase_of_ne hCc).mpr (h8.mp h6)
    · intro h6
      have h6' : C ∈ np.children.erase c := h6
      exact h8.mpr ((List.mem_erase_of_ne hCc).mp h6')
  · rw [hso P hPp] at hP
    exact hcon P nP C nC0 hP hC0

/-- A three-object chain heap: root 1 → 2 → 3. -/
def heapC : Heap :=
  { nodes := fun j => if j = 1 then some nodeRoot
             else if j = 2 then some { nodeLeaf with name := "mid", children := [3] }
             else if j = 3 then some { nodeLeaf with parent := some 2 }
             else none,
    roots := [1] }

/-- Bounded decidable check of the consistency biconditional at one pair
of ids. -/
def checkPairB (h : Heap) (p c : Nat) : Bool :=
  match h.nodes p, h.nodes c with
  | some np, some nc => decide (nc.parent = some p) == decide (c ∈ np.children)
  | _, _ => true

/-- Bounded decidable check that one id's children list is duplicate-free. -/
def checkNodupB (h : Heap) (p : Nat) : Bool :=
  match h.nodes p with
  | some np => decide np.children.Nodup
  | none => true

/-- Bounded decidable check that id `z` is unreferenced at id `q`. -/
def checkFreshB (h : Heap) (z q : Nat) : Bool :=
  match h.nodes q with
  | some nq => decide (z ∉ nq.children) && decide (nq.parent ≠ some z)
  | none => true

theorem consistent_of_check (h : Heap) (n : Nat)
    (hb : ∀ j, n ≤ j → h.nodes j = none)
    (hchk : ∀ p, p < n → ∀ c, c < n → checkPairB h p c = true) :
    consistent h := by
  intro p np c nc hp hc
  have hpn : p < n := by
    by_contra hh
    rw [hb p (Nat.le_of_not_lt hh)] at hp
    cases hp
  have hcn : c < n := by
    by_contra hh
    rw [hb c (Nat.le_of_not_lt hh)] at hc
    cases hc
  have h1 := hchk p hpn c hcn
  simp only [checkPairB, hp, hc, beq_iff_eq] at h1
  exact decide_eq_decide.mp h1

theorem nodupChildren_of_check (h : Heap) (n : Nat)
    (hb : ∀ j, n ≤ j → h.nodes j = none)
    (hchk : ∀ p, p < n → checkNodupB h p = true) :
    nodupChildren h := by
  intro p np hp
  have hpn : p < n := by
    by_contra hh
    rw [hb p (Nat.le_of_not_lt hh)] at hp
    cases hp
  have h1 := hchk p hpn
  simp only [checkNodupB, hp, decide_eq_true_eq] at h1
  exact h1

theorem fresh_of_check (h : Heap) (n z : Nat)
    (hb : ∀ j, n ≤ j → h.nodes j = none)
    (hchk : ∀ q, q < n → checkFreshB h z q = true) :
    ∀ q nq, h.nodes q = some nq → z ∉ nq.children ∧ nq.parent ≠ some z := by
  intro q nq hq
  have hqn : q < n := by
    by_contra hh
    rw [hb q (Nat.le_of_not_lt hh)] at hq
    cases hq
  have h1 := hchk q hqn
  simp only [checkFreshB, hq, Bool.and_eq_true, decide_eq_true_eq] at h1
  exact h1

theorem heap0_bound : ∀ j, 3 ≤ j → heap0.nodes j = none := by
  intro j hj
  simp only [heap0]
  rw [if_neg (by omega), if_neg (by omega)]

theorem heap1_bound : ∀ j, 4 ≤ j → heap1.nodes j = none := by
  intro j hj
  simp only [heap1]
  rw [if_neg (by omega), if_neg (by omega), if_neg (by omega)]

theorem heapC_bound : ∀ j, 4 ≤ j → heapC.nodes j = none := by
  intro j hj
  simp only [heapC]
  rw [if_neg (by omega), if_neg (by omega), if_neg (by omega)]

theorem consistent_heap0 : consistent heap0 :=
  consistent_of_check heap0 3 heap0_bound (by decide)

theorem nodupChildren_heap0 : nodupChildren heap0 :=
  nodupChildren_of_check heap0 3 heap0_bound (by decide)

theorem consistent_heap1 : consistent heap1 :=
  consistent_of_check heap1 4 heap1_bound (by decide)

theorem nodupChildren_heap1 : nodupChildren heap1 :=
  nodupChildren_of_check heap1 4 heap1_bound (by decide)

theorem consistent_heapC : consistent heapC :=
  consistent_of_check heapC 4 heapC_bound (by decide)

theorem nodupChildren_heapC : nodupChildren heapC :=
  nodupChildren_of_check heapC 4 heapC_bound (by decide)

/-- Counterexample to C4 as stated: in the consistent two-object heap
(root 1 owning leaf 2), deleting node 2 removes it from 1's children but
`remove_child` never clears the detached node's `parent` field, so node 2
still carries `parent = 1` while `2 ∉ children(1)` — the biconditional
fails after the remove. -/
theorem C4_stale_parent_counterexample :
    consistent heap0 ∧
    (deleteTask heap0 2).nodes 2 = some nodeLeaf ∧
    nodeLeaf.parent = some 1 ∧
    (deleteTask heap0 2).nodes 1 = some { nodeRoot with children := [] } ∧
    ¬ consistent (deleteTask heap0 2) := by
  refine ⟨consistent_heap0, by decide, by decide, by decide, ?_⟩
  intro hcon
  have h12 := hcon 1 { nodeRoot with children := [] } 2 nodeLeaf
    (by decide) (by decide)
  simp [nodeLeaf, nodeRoot] at h12

/-- C4 (amended): after every completed add-child, promote and demote on a
live well-formed forest (parent consistency and duplicate-free child lists
beforehand; a genuinely fresh id for add-child; the affected objects
distinct, as they are in an acyclic live forest), the biconditional
`c.parent = p ↔ c ∈ p.children` holds for every pair of live objects.
Remove preserves the biconditional for every pair not involving the removed
node and does remove the node from its former parent's children, but the
detached node itself keeps its record unchanged — including the now-stale
`parent` back-reference to its former parent, which `remove_child` never
clears.  Removing a root changes no object record at all. -/
theorem C4_parent_consistency_amended :
    (∀ (h : Heap) (p z : Nat) (nm ds ca : String) (np : Node),
      consistent h → h.nodes p = some np → h.nodes z = none →
      (∀ q nq, h.nodes q = some nq → z ∉ nq.children ∧ nq.parent ≠ some z) →
      consistent (addChild h p z nm ds ca)) ∧
    (∀ (h : Heap) (c p g : Nat) (nc np ng : Node),
      consistent h → nodupChildren h → h.nodes c = some nc →
      nc.parent = some p → h.nodes p = some np → np.parent = some g →
      h.nodes g = some ng → c ≠ p → c ≠ g → p ≠ g →
      consistent ((promote h c).1)) ∧
    (∀ (h : Heap) (c : Nat) (i : Int) (p t : Nat) (nc np nt : Node),
      consistent h → nodupChildren h → h.nodes c = some nc →
      nc.parent = some p → h.nodes p = some np → ¬ i < 0 →
      np.children[i.toNat]? = some t → ¬ t = c → h.nodes t = some nt →
      c ≠ p → p ≠ t → consistent ((demote h c i).1)) ∧
    (∀ (h : Heap) (c p : Nat) (nc np : Node),
      consistent h → nodupChildren h → h.nodes c = some nc →
      nc.parent = some p → h.nodes p = some np → c ≠ p →
      ((deleteTask h c).nodes c = some nc ∧
       (∀ np2, (deleteTask h c).nodes p = some np2 → c ∉ np2.children) ∧
       (∀ P nP C nC, C ≠ c → (deleteTask h c).nodes P = some nP →
         (deleteTask h c).nodes C = some nC →
         (nC.parent = some P ↔ C ∈ nP.children)))) ∧
    (∀ (h : Heap) (c : Nat) (nc : Node), h.nodes c = some nc →
      nc.parent = none → ∀ j, (deleteTask h c).nodes j = h.nodes j) := by
  refine ⟨?_, ?_, ?_, ?_, ?_⟩
  · intro h p z nm ds ca np hcon hp hz hfresh
    exact consistent_addChild h p z nm ds ca np hcon hp hz hfresh
  · intro h c p g nc np ng hcon hnd hc hpar hp hgp hg hcp hcg hpg
    have hmem : c ∈ np.children := (hcon p np c nc hp hc).mp hpar
    obtain ⟨s1, s2, s3, s4⟩ :=
      promote_shape h c p g nc np ng hc hpar hp hgp hg hcp hcg hpg hmem
    exact consistent_move h (promote h c).1 c p g nc np ng hcon hnd hc hpar
      hp hg hcp hcg hpg s1 s2 s3 s4
  · intro h c i p t nc np nt hcon hnd hc hpar hp hneg hidx hself ht hcp hpt
    have hmem : c ∈ np.children := (hcon p np c nc hp hc).mp hpar
    obtain ⟨s1, s2, s3, s4⟩ :=
      demote_shape h c i p t nc np nt hc hpar hp hneg hidx hself ht hcp hpt hmem
    exact consistent_move h (demote h c i).1 c p t nc np nt hcon hnd hc hpar
      hp ht hcp (fun hh => hself hh.symm) hpt s1 s2 s3 s4
  · intro h c p nc np hcon hnd hc hpar hp hcp
    have hmem : c ∈ np.children := (hcon p np c nc hp hc).mp hpar
    obtain ⟨hsp, hso, _⟩ := deleteTask_parented_shape h c p nc np hc hpar hp hmem
    refine ⟨?_, ?_, consistent_after_delete h c p nc np hcon hc hpar hp⟩
    · rw [hso c hcp]
      exact hc
    · intro np2 hnp2
      rw [hsp] at hnp2
      injection hnp2 with hnp2
      subst hnp2
      exact (hnd p np hp).not_mem_erase
  · intro h c nc hc hpar j
    simp [deleteTask, hc, hpar]

/-- Witness for the amended C4: each conjunct exercised on a concrete heap
(add a fresh child 7 under leaf 2 of the two-object heap; promote 3 in the
chain 1 → 2 → 3; demote 2 under its sibling 3; delete leaf 2 under root 1;
delete the root 1 itself). -/
theorem C4_parent_consistency_amended_witness :
    consistent (addChild heap0 2 7 "n" "" "t3") ∧
    consistent ((promote heapC 3).1) ∧
    consistent ((demote heap1 2 1).1) ∧
    (deleteTask heap0 2).nodes 2 = some nodeLeaf ∧
    2 ∉ ({ nodeRoot with children := ([] : List Nat) }).children ∧
    (deleteTask heap0 1).nodes 5 = heap0.nodes 5 := by
  have hfresh0 : ∀ q nq, heap0.nodes q = some nq →
      7 ∉ nq.children ∧ nq.parent ≠ some 7 :=
    fresh_of_check heap0 3 7 heap0_bound (by decide)
  have hdel := C4_parent_consistency_amended.2.2.2.1 heap0 2 1 nodeLeaf
    nodeRoot consistent_heap0 nodupChildren_heap0 rfl rfl rfl (by decide)
  refine ⟨?_, ?_, ?_, hdel.1, ?_, ?_⟩
  · exact C4_parent_consistency_amended.1 heap0 2 7 "n" "" "t3" nodeLeaf
      consistent_heap0 rfl rfl hfresh0
  · exact C4_parent_consistency_amended.2.1 heapC 3 2 1
      { nodeLeaf with parent := some 2 }
      { nodeLeaf with name := "mid", children := [3] } nodeRoot
      consistent_heapC nodupChildren_heapC rfl rfl rfl rfl rfl
      (by decide) (by decide) (by decide)
  · exact C4_parent_consistency_amended.2.2.1 heap1 2 1 1 3 nodeLeaf
      { nodeRoot with children := [2, 3] } nodeLeaf
      consistent_heap1 nodupChildren_heap1 rfl rfl rfl (by decide)
      (by decide) (by decide) rfl (by decide) (by decide)
  · exact hdel.2.1 { nodeRoot with children := [] } (by decide)
  · exact C4_parent_consistency_amended.2.2.2.2 heap0 1 nodeRoot rfl rfl 5

end JobDoko
